import Mathlib

/-!
Shallow embedding of `clipboard_manager.py` (Sublime Clipboard Manager).

The program keeps a bounded clipboard history (`HistoryList`), a secondary
yank stack (a second `HistoryList`), and a register store (a dict from
single-character keys to strings).  The embedding below translates the
Python classes and functions into pure Lean functions; host-visible side
effects (clipboard writes, popups, status messages, command invocations)
are collected into an explicit `Effect` list, and the mutable module
globals (`YANK_MODE`, settings) are passed as parameters or threaded
through an explicit dispatcher state.

Python integers are modelled as `Int` (Python list indexing accepts
negative indices, which are used by `ClipboardManager.yank` through
`HistoryList.at(self.idx - 1)`), strings as `String`, Python `None` as
`Option.none`, and dicts as association lists with unique keys.
-/

/-- Host-visible side effects of an operation, in order of occurrence.
`pyError` marks a branch where the Python code would raise an exception or
hang (e.g. `set_clip(None)` loops forever); it is unreachable in the states
the theorems below quantify over. -/
inductive Effect where
  | setClip (s : String)
  | popup (msg : String)
  | statusMessage (msg : String)
  | runCommand (name : String)
  | hideAll
  | updatePanel
  | showAtCenter
  | quickPanel
  | pyError
  deriving DecidableEq

/-- Metadata captured per clip by `HistoryList.clip_syntax`:
(syntax setting, color scheme, codeblock syntax tag). -/
def Syn : Type := String × String × String

instance : DecidableEq Syn := by
  unfold Syn; infer_instance

/-- Module-level configuration read from the settings store.  These are the
settings the modelled code paths consult. -/
structure Globals where
  explicit_yank_mode : Bool
  allow_history_duplicates : Bool
  end_yank_mode_on_emptied_stack : Bool
  yank_disjoin_multiple_cursors : Bool
  deriving DecidableEq

/-- Host (Sublime view) state consulted by `HistoryList.append`:
the number of cursors `len(v.sel())`, the selected substrings
`[v.substr(sel) for sel in v.sel()]`, and the metadata returned by
`clip_syntax()`. -/
structure Host where
  numSel : Nat
  selSubstrs : List String
  syn : Syn
  deriving DecidableEq

/-- Python list indexing `l[i]`: non-negative indices from the front,
negative indices from the back; `none` models an `IndexError`. -/
def pyGet (l : List String) (i : Int) : Option String :=
  if 0 ≤ i then l[i.toNat]?
  else if -(l.length : Int) ≤ i then l[((l.length : Int) + i).toNat]?
  else none

/-- Python truthiness of an optional string value (`None` and `""` are
falsy). -/
def pyTruthy : Option String → Bool
  | some v => v ≠ ""
  | none => false

/-- Python dict lookup `d[k]` on an association list (first binding wins;
dicts never hold duplicate keys, so association lists standing for dicts
have `Nodup` keys). -/
def dictGet (d : List (Char × String)) (k : Char) : Option String :=
  (d.find? (fun p => p.1 = k)).map (fun p => p.2)

/-- Python dict assignment `d[k] = v`: replace the binding in place if the
key exists, otherwise append a new binding. -/
def dictSet : List (Char × String) → Char → String → List (Char × String)
  | [], k, v => [(k, v)]
  | p :: d, k, v => if p.1 = k then (k, v) :: d else p :: dictSet d k v

/-- Python `d.update(m)`: assign every binding of `m` into `d`, in order. -/
def dictUpdate (d m : List (Char × String)) : List (Char × String) :=
  m.foldl (fun acc p => dictSet acc p.1 p.2) d

/-- Register key alphabets, as in the module globals. -/
def numbers : String := "1234567890"

def lettersl : String := "abcdefghijklmnopqrstuvwxyz"

def lettersu : String := "ABCDEFGHIJKLMNOPQRSTUVWXYZ"

/-- `popup_content(st, syntax)`: format content for a popup. -/
def popup_content (st : String) (syn : String) : String :=
  let syn := if st.toList.count '\n' ≠ 0 then syn else ""
  "```" ++ syn ++ "\n" ++ (if st.length > 500 then st.take 350 ++ "\n...\n" else st) ++ "\n```"

/-- The `HistoryList` object: clip payloads, per-clip metadata, capacity,
the hidden index pointer `self.__index`, and the register dict.  The index
is `Option Int`: Python code stores `None` into it in one branch of
`HistoryList.at`, and negative values through `first()` on an empty list or
`at(self.idx - 1)` during yanking. -/
structure HistoryList where
  clips : List String
  registers : List (Char × String)
  maxClips : Nat
  index : Option Int
  clipSyntaxes : List Syn
  deriving DecidableEq

/-- `HistoryList.__init__`. -/
def HistoryList.init : HistoryList :=
  { clips := [], registers := [], maxClips := 256, index := some 0, clipSyntaxes := [] }

/-- `HistoryList.__reset__`: clear clips and metadata, keep registers. -/
def HistoryList.reset (h : HistoryList) : HistoryList :=
  { h with clips := [], clipSyntaxes := [], index := some 0 }

/-- `HistoryList.current`: item at the current index, `None` when empty. -/
def HistoryList.current (h : HistoryList) : Option String :=
  if h.clips.length ≠ 0 then
    match h.index with
    | some i => pyGet h.clips i
    | none => none   -- Python would raise TypeError here; unreachable
  else none

/-- `HistoryList.current_index`: the index, `None` when empty. -/
def HistoryList.current_index (h : HistoryList) : Option Int :=
  if h.clips.length ≠ 0 then h.index else none

/-- `HistoryList.status`: mirror the current entry to the live clipboard,
or report when there is nothing (note Python truthiness: an empty-string
entry is falsy and also reports). -/
def HistoryList.status (h : HistoryList) : List Effect :=
  match h.current with
  | some s => if s ≠ "" then [Effect.setClip s] else [Effect.popup "Nothing in history"]
  | none => [Effect.popup "Nothing in history"]

/-- `HistoryList.at` (renamed: `at` is a Lean keyword): reposition the
index, clamping an index `>= len` to `0` (or `None` on an empty list),
then apply the live-clipboard side effect. -/
def HistoryList.atIndex (h : HistoryList) (idx : Int) : HistoryList × List Effect :=
  let h' :=
    if idx < (h.clips.length : Int) then { h with index := some idx }
    else if h.clips.length ≠ 0 then { h with index := some 0 }
    else { h with index := none }
  (h', h'.status)

/-- `HistoryList.next`: move the index toward 0 if positive. -/
def HistoryList.next (h : HistoryList) : HistoryList × List Effect :=
  match h.index with
  | some i =>
    let h' := if i > 0 then { h with index := some (i - 1) } else h
    (h', h'.status)
  | none => (h, [Effect.pyError])  -- Python: `None > 0` raises TypeError

/-- `HistoryList.previous`: move the index toward the oldest entry. -/
def HistoryList.previous (h : HistoryList) : HistoryList × List Effect :=
  match h.index with
  | some i =>
    let h' := if i < (h.clips.length : Int) - 1 then { h with index := some (i + 1) } else h
    (h', h'.status)
  | none => (h, [Effect.pyError])

/-- `HistoryList.first`: jump to the oldest entry (`len - 1`). -/
def HistoryList.first (h : HistoryList) : HistoryList × List Effect :=
  let h' := { h with index := some ((h.clips.length : Int) - 1) }
  (h', h'.status)

/-- `HistoryList.last`: jump to the newest entry (`0`). -/
def HistoryList.last (h : HistoryList) : HistoryList × List Effect :=
  let h' := { h with index := some 0 }
  (h', h'.status)

/-- The nested `insert_item` helper of `HistoryList.append`: reset the
index to 0, prepend the item (unless `skip`), and evict the tail entry
when over capacity. -/
def HistoryList.insert_item (h : HistoryList) (skip : Bool) (syn : Syn) (item : String) :
    HistoryList :=
  let h1 := { h with index := some 0 }
  let h2 :=
    if skip then h1
    else { h1 with clips := item :: h1.clips, clipSyntaxes := syn :: h1.clipSyntaxes }
  if h2.clips.length > h2.maxClips then
    { h2 with clips := h2.clips.dropLast, clipSyntaxes := h2.clipSyntaxes.dropLast }
  else h2

/-- `HistoryList.append`: append to the history, or reposition the item if
already present.  `yankMode` is the module global `YANK_MODE`; `g` carries
the settings; `host` carries the view state consulted in yank mode. -/
def HistoryList.append (yankMode : Bool) (g : Globals) (host : Host) (h : HistoryList)
    (item : String) : HistoryList :=
  if yankMode then
    match h.clips.head? with
    | some top =>
      if item = top ∧ host.numSel = 1 then h.insert_item true host.syn item
      else if g.yank_disjoin_multiple_cursors then
        host.selSubstrs.foldl
          (fun acc sub => if sub = "" then acc else acc.insert_item false host.syn sub) h
      else h.insert_item false host.syn item
    | none =>
      if g.yank_disjoin_multiple_cursors then
        host.selSubstrs.foldl
          (fun acc sub => if sub = "" then acc else acc.insert_item false host.syn sub) h
      else h.insert_item false host.syn item
  else
    match h.clips.head? with
    | some top =>
      if item = top then h.insert_item true host.syn item
      else if ¬ g.allow_history_duplicates ∧ item ∈ h.clips then
        let ix := h.clips.indexOf item
        HistoryList.insert_item
          { h with clips := h.clips.eraseIdx ix, clipSyntaxes := h.clipSyntaxes.eraseIdx ix }
          false host.syn item
      else h.insert_item false host.syn item
    | none => h.insert_item false host.syn item

/-- `HistoryList.reset_register`: set every key of the chosen sub-alphabet
to the empty string, or clear the whole dict. -/
def HistoryList.reset_register (h : HistoryList) (what : String) : HistoryList :=
  if what = "numbers" then
    { h with registers := numbers.toList.foldl (fun acc n => dictSet acc n "") h.registers }
  else if what = "lettersl" then
    { h with registers := lettersl.toList.foldl (fun acc n => dictSet acc n "") h.registers }
  else if what = "lettersu" then
    { h with registers := lettersu.toList.foldl (fun acc n => dictSet acc n "") h.registers }
  else
    { h with registers := [] }

/-- `HistoryList.register(register, st=None)`: save to a register when
`st` is truthy, otherwise read it back (`KeyError`, modelled as `.error`,
when absent).  `codeblockSyn` stands for `self.clip_syntax()[2]`, host
state used only to format the confirmation popup. -/
def HistoryList.register (h : HistoryList) (reg : Char) (st : Option String)
    (codeblockSyn : String) : Except Unit (HistoryList × Option String × List Effect) :=
  match st with
  | some s =>
    if s ≠ "" then
      let content := popup_content s codeblockSyn
      Except.ok ({ h with registers := dictSet h.registers reg s }, none,
        [Effect.popup ("Set Clipboard Register \"" ++ reg.toString ++ "\" to:\n\n" ++ content)])
    else
      match dictGet h.registers reg with
      | some v => Except.ok (h, some v, [])
      | none => Except.error ()
  | none =>
    match dictGet h.registers reg with
    | some v => Except.ok (h, some v, [])
    | none => Except.error ()

/-- `set_clip(s)`: `while s != get_clip(): sublime.set_clipboard(s)`.
The clipboard device is modelled by the sequence of values its `k`-th
readback reports; the unbounded busy-wait is modelled with explicit fuel.
Returns the index of the first readback equal to `s`, or `none` when the
fuel runs out before the device reports `s`. -/
def set_clipLoop (s : String) (device : Nat → String) : Nat → Nat → Option Nat
  | _, 0 => none
  | k, fuel + 1 => if device k = s then some k else set_clipLoop s device (k + 1) fuel

/-- `set_clip` entry point: start polling at the first readback. -/
def set_clip (s : String) (device : Nat → String) (fuel : Nat) : Option Nat :=
  set_clipLoop s device 0 fuel

/-- State of the `ClipboardManager` command dispatcher: the two
process-wide `HistoryList` singletons (`HISTORY` and `YANK`), the mutable
module global `YANK_MODE`, the `self.List` selector, and the instance
attributes `indent`, `pop`, `idx` (the saved chooser index used by the
yank resume logic). -/
structure CMState where
  history : HistoryList
  yank : HistoryList
  yankMode : Bool
  useYank : Bool
  indent : Bool
  pop : Bool
  idx : Option Int
  deriving DecidableEq

/-- The `HistoryList` that `self.List` currently references. -/
def CMState.getList (s : CMState) : HistoryList :=
  if s.useYank then s.yank else s.history

/-- Write back through the `self.List` reference. -/
def CMState.setList (s : CMState) (L : HistoryList) : CMState :=
  if s.useYank then { s with yank := L } else { s with history := L }

/-- `ClipboardManagerYankMode.run`: toggle `YANK_MODE`; clear the yank
list when manually exiting yank mode under `explicit_yank_mode`. -/
def yankModeCommand (g : Globals) (s : CMState) : CMState × List Effect :=
  let ym := ! s.yankMode
  let s' := { s with yankMode := ym }
  let effs := [Effect.statusMessage ("  YANK MODE:  " ++ (if ym then "On" else "Off"))]
  if ¬ ym ∧ g.explicit_yank_mode then ({ s' with yank := HistoryList.init }, effs)
  else (s', effs)

/-- `ClipboardManager.paste`: write the current entry of the addressed
list to the clipboard and invoke the host paste command; when `pop` is
set, consume the entry (Python `List.clips.index(clip)` finds the first
occurrence of the pasted content). -/
def ClipboardManager.paste (s : CMState) (yanking : Bool) : CMState × List Effect :=
  let L := s.getList
  let msg := if yanking then "Nothing in yank stack" else "Nothing in history"
  if L.clips.length = 0 then (s, [Effect.popup msg])
  else
    match L.current with
    | none => (s, [Effect.pyError])  -- set_clip(None) would never terminate; unreachable
    | some clip =>
      let effs := [Effect.setClip clip,
        Effect.runCommand (if s.indent then "paste_and_indent" else "paste"),
        Effect.showAtCenter, Effect.hideAll]
      if s.pop then
        let ix := L.clips.indexOf clip
        let L' := { L with clips := L.clips.eraseIdx ix,
                           clipSyntaxes := L.clipSyntaxes.eraseIdx ix }
        let effs2 := if L'.clips.length = 0 then [Effect.popup msg] else []
        (s.setList L', effs ++ effs2 ++ [Effect.updatePanel])
      else (s.setList L, effs ++ [Effect.updatePanel])

/-- `ClipboardManager.choose_and_paste`: list the entries in a quick
panel; the asynchronous selection callback is `chooseOnDone` below. -/
def ClipboardManager.choose_and_paste (s : CMState) : CMState × List Effect :=
  let L := s.getList
  if L.clips.length = 0 then (s, [Effect.popup "Nothing in history"])
  else (s, [Effect.quickPanel])

/-- The `on_done` callback of `choose_and_paste`: record the chosen index
as the yank resume index, reposition, and paste; a negative index is the
cancellation sentinel. -/
def ClipboardManager.chooseOnDone (s : CMState) (yanking : Bool) (idx : Int) :
    CMState × List Effect :=
  if 0 ≤ idx then
    let s1 := { s with idx := some idx }
    let (L', e1) := s1.getList.atIndex idx
    let (s2, e2) := ClipboardManager.paste (s1.setList L') yanking
    (s2, e1 ++ e2 ++ [Effect.hideAll])
  else
    let (L', e1) := s.getList.atIndex 0
    (s.setList L', e1 ++ [Effect.hideAll])

/-- The final step of `ClipboardManager.yank`: when the stack has just
emptied under explicit yank mode, optionally run the yank-mode toggle
command. -/
def yankEndWrap (g : Globals) (s1 : CMState) (effs1 : List Effect) :
    CMState × List Effect :=
  if s1.yankMode ∧ s1.yank.clips.length = 0 ∧ g.explicit_yank_mode then
    if g.end_yank_mode_on_emptied_stack then
      let (s2, e3) := yankModeCommand g s1
      (s2, effs1 ++ e3)
    else (s1, effs1)
  else (s1, effs1)

/-- `ClipboardManager.yank`: the consuming traversal over the yank stack.
When a chooser-selected resume index is saved and still within the stack,
resume one position before it and decrement it (clearing it when it drops
below zero); otherwise pop the bottom-most entry via `first()`.  When the
stack empties under explicit yank mode, optionally end yank mode. -/
def ClipboardManager.yank (g : Globals) (s : CMState) (choice : Bool) :
    CMState × List Effect :=
  if s.yank.clips.length ≠ 0 then
    let s0 := { s with useYank := true }
    let step : CMState × List Effect :=
      if choice then ClipboardManager.choose_and_paste s0
      else
        match s0.idx with
        | some i =>
          if (s0.yank.clips.length : Int) - 1 ≥ i then
            let (y, e1) := s0.yank.atIndex (i - 1)
            let idx' : Option Int := if i - 1 < 0 then none else some (i - 1)
            let (s2, e2) := ClipboardManager.paste { s0 with yank := y, idx := idx' } true
            (s2, e1 ++ e2)
          else
            let (y, e1) := s0.yank.first
            let (s2, e2) := ClipboardManager.paste { s0 with yank := y } true
            (s2, e1 ++ e2)
        | none =>
          let (y, e1) := s0.yank.first
          let (s2, e2) := ClipboardManager.paste { s0 with yank := y } true
          (s2, e1 ++ e2)
    yankEndWrap g step.1 step.2
  else (s, [Effect.popup "Nothing to yank"])

/-- `ClipboardManager.run` dispatching a `yank` command: the run method
sets `self.indent` from the kwargs, forces `self.pop = True`, and calls
`self.yank('choose' in kwargs)`. -/
def ClipboardManager.runYank (g : Globals) (s : CMState) (indent choose : Bool) :
    CMState × List Effect :=
  ClipboardManager.yank g { s with indent := indent, pop := true } choose

/-- `ClipboardManagerRegister.paste`: paste from a register key, or report
an invalid register; the history object is left untouched either way. -/
def ClipboardManagerRegister.paste (h : HistoryList) (indent : Bool) (s : Char) :
    HistoryList × List Effect :=
  match dictGet h.registers s with
  | some v =>
    (h, [Effect.statusMessage ("   Pasted register " ++ s.toString), Effect.setClip v,
         Effect.runCommand (if indent then "paste_and_indent" else "paste")])
  | none => (h, [Effect.statusMessage "   Not a valid register"])

/-- The category sub-dicts computed by `export_to`/`import_from`:
keys of the given alphabet whose values are truthy (non-empty). -/
def catFilter (alphabet : String) (data : List (Char × String)) : List (Char × String) :=
  data.filter (fun p => decide (p.1 ∈ alphabet.toList ∧ p.2 ≠ ""))

/-- `ClipboardManagerRegister.export_to`, resolved at a quick-panel choice
`ix` (0 = all, 1 = numbers, 2 = lowercase, 3 = uppercase): the dict dumped
to the register file, `none` when the choice is cancelled. -/
def ClipboardManagerRegister.export_to (data : List (Char × String)) (ix : Int) :
    Option (List (Char × String)) :=
  let nums := catFilter numbers data
  let letsL := catFilter lettersl data
  let letsU := catFilter lettersu data
  if ix = 0 then some (dictUpdate (dictUpdate nums letsL) letsU)
  else if ix = 1 then some nums
  else if ix = 2 then some letsL
  else if ix = 3 then some letsU
  else none

/-- `ClipboardManagerRegister.import_from`, resolved at a quick-panel
choice `ix`: merge the selected category of the file dict into the live
register store. -/
def ClipboardManagerRegister.import_from (store fileData : List (Char × String)) (ix : Int) :
    List (Char × String) :=
  let nums := catFilter numbers fileData
  let letsL := catFilter lettersl fileData
  let letsU := catFilter lettersu fileData
  if ix = 0 then dictUpdate (dictUpdate (dictUpdate store nums) letsL) letsU
  else if ix = 1 then dictUpdate store nums
  else if ix = 2 then dictUpdate store letsL
  else if ix = 3 then dictUpdate store letsU
  else store

/-- The key alphabet addressed by the quick-panel choice `ix` of the
register export/import menus. -/
def catChars (ix : Int) : List Char :=
  if ix = 0 then numbers.toList ++ lettersl.toList ++ lettersu.toList
  else if ix = 1 then numbers.toList
  else if ix = 2 then lettersl.toList
  else lettersu.toList

/-- One `append` event as delivered by the host: the `YANK_MODE` global at
that moment, the settings, the view state, and the clipboard text. -/
structure AppendOp where
  yankMode : Bool
  g : Globals
  host : Host
  item : String

/-- A whole sequence of `append` events applied to a `HistoryList`. -/
def appendAll (ops : List AppendOp) (h : HistoryList) : HistoryList :=
  ops.foldl (fun acc op => HistoryList.append op.yankMode op.g op.host acc op.item) h

/-! Concrete sample states used by counterexamples and witnesses. -/

def sampleSyn : Syn := ("Python.sublime-syntax", "Mariana.sublime-color-scheme", "python")

def sampleGlobals : Globals :=
  { explicit_yank_mode := false, allow_history_duplicates := false,
    end_yank_mode_on_emptied_stack := false, yank_disjoin_multiple_cursors := false }

def sampleHost : Host := { numSel := 1, selSubstrs := [], syn := sampleSyn }

/-- History `["a", "b"]` ("a" newest) with the index pointer parked on the
older entry `"b"`. -/
def c1State : HistoryList :=
  { clips := ["a", "b"], registers := [], maxClips := 256, index := some 1,
    clipSyntaxes := [sampleSyn, sampleSyn] }

/-- The spec scenario: `append("a")`, `append("b")`, `append("a")` from an
empty history. -/
def c3Scenario : HistoryList :=
  HistoryList.append false sampleGlobals sampleHost
    (HistoryList.append false sampleGlobals sampleHost
      (HistoryList.append false sampleGlobals sampleHost HistoryList.init "a") "b") "a"

/-- A yank stack `["b", "a"]` with a stale saved chooser index `2`
(reachable: choose entry 2 of a 3-entry stack, pop it, then yank once). -/
def c2State : CMState :=
  { history := HistoryList.init,
    yank := { clips := ["b", "a"], registers := [], maxClips := 256, index := some 0,
              clipSyntaxes := [sampleSyn, sampleSyn] },
    yankMode := true, useYank := false, indent := false, pop := false, idx := some 2 }

/-- A yank stack `["c", "b", "a"]` with a live saved chooser index `2`. -/
def c2ResumeState : CMState :=
  { history := HistoryList.init,
    yank := { clips := ["c", "b", "a"], registers := [], maxClips := 256, index := some 0,
              clipSyntaxes := [sampleSyn, sampleSyn, sampleSyn] },
    yankMode := true, useYank := false, indent := false, pop := false, idx := some 2 }

/-- A yank stack `["a", "b", "a"]` with duplicate payloads and no saved
chooser index (reachable: under yank mode the append de-bounce only
compares against the head, so copying a, b, a stacks a duplicate). -/
def c2DupState : CMState :=
  { history := HistoryList.init,
    yank := { clips := ["a", "b", "a"], registers := [], maxClips := 256, index := some 0,
              clipSyntaxes := [sampleSyn, sampleSyn, sampleSyn] },
    yankMode := true, useYank := false, indent := false, pop := false, idx := none }

/-- A non-empty two-entry history with the index at the newest entry. -/
def twoClipState : HistoryList :=
  { clips := ["a", "b"], registers := [], maxClips := 256, index := some 0,
    clipSyntaxes := [sampleSyn, sampleSyn] }

/-- A dispatcher state whose addressed history is empty. -/
def emptyDispatchState : CMState :=
  { history := HistoryList.init, yank := HistoryList.init, yankMode := false,
    useYank := false, indent := false, pop := false, idx := none }

/-- A history whose register store maps only `'a'`. -/
def oneRegState : HistoryList :=
  { clips := [], registers := [('a', "hello")], maxClips := 256, index := some 0,
    clipSyntaxes := [] }

/-- A clipboard device that reports the written value from the third
readback on. -/
def sampleDevice : Nat → String := fun n => if 2 ≤ n then "x" else ""

/-- A register store with an empty-valued key and keys of each category. -/
def sampleStore : List (Char × String) := [('1', "one"), ('2', ""), ('a', "aa"), ('B', "bb")]

/-- A short concrete sequence of append events. -/
def sampleOps : List AppendOp :=
  [{ yankMode := false, g := sampleGlobals, host := sampleHost, item := "a" },
   { yankMode := false, g := sampleGlobals, host := sampleHost, item := "b" },
   { yankMode := true, g := sampleGlobals, host := sampleHost, item := "c" }]

/-! Helper lemmas about Python-style list indexing. -/

theorem pyGet_ofNat (l : List String) (n : Nat) : pyGet l (n : Int) = l[n]? := by
  simp [pyGet]

theorem pyGet_len_sub_one (l : List String) (h : l ≠ []) :
    pyGet l ((l.length : Int) - 1) = l.getLast? := by
  have hlen : 1 ≤ l.length := List.length_pos.mpr h
  have h0 : (0 : Int) ≤ (l.length : Int) - 1 := by omega
  have ht : ((l.length : Int) - 1).toNat = l.length - 1 := by omega
  simp only [pyGet, if_pos h0, ht, List.getLast?_eq_getElem?]

theorem pyGet_neg_one (l : List String) (h : l ≠ []) : pyGet l (-1) = l.getLast? := by
  have hlen : 1 ≤ l.length := List.length_pos.mpr h
  have h0 : ¬ (0 : Int) ≤ -1 := by omega
  have h1 : -(l.length : Int) ≤ -1 := by omega
  have ht : ((l.length : Int) + (-1)).toNat = l.length - 1 := by omega
  simp only [pyGet, if_neg h0, if_pos h1, ht, List.getLast?_eq_getElem?]

theorem eraseIdx_last (l : List String) : l.eraseIdx (l.length - 1) = l.dropLast := by
  rcases eq_or_ne l [] with rfl | h
  · rfl
  · have hlen : 1 ≤ l.length := List.length_pos.mpr h
    have hsucc : l.length - 1 + 1 = l.length := by omega
    rw [List.eraseIdx_eq_take_drop_succ, List.dropLast_eq_take, hsucc, List.drop_length,
      List.append_nil]

theorem indexOf_getLast (l : List String) (h : l ≠ []) (hnd : l.Nodup) :
    l.indexOf (l.getLast h) = l.length - 1 := by
  rw [List.getLast_eq_getElem]
  exact List.indexOf_getElem hnd _ (by have := List.length_pos.mpr h; omega)

/-! Helper lemmas about the `set_clip` polling loop. -/

theorem set_clipLoop_sound (s : String) (device : Nat → String) :
    ∀ (fuel k r : Nat), set_clipLoop s device k fuel = some r →
      device r = s ∧ k ≤ r ∧ ∀ j, k ≤ j → j < r → device j ≠ s := by
  intro fuel
  induction fuel with
  | zero => intro k r hr; simp [set_clipLoop] at hr
  | succ n ih =>
    intro k r hr
    by_cases hk : device k = s
    · simp only [set_clipLoop, if_pos hk] at hr
      cases hr
      exact ⟨hk, le_refl _, fun j h1 h2 => absurd (lt_of_le_of_lt h1 h2) (lt_irrefl _)⟩
    · simp only [set_clipLoop, if_neg hk] at hr
      obtain ⟨h1, h2, h3⟩ := ih (k + 1) r hr
      refine ⟨h1, by omega, fun j hj1 hj2 => ?_⟩
      rcases eq_or_lt_of_le hj1 with rfl | hlt
      · exact hk
      · exact h3 j (by omega) hj2

theorem set_clipLoop_complete (s : String) (device : Nat → String) :
    ∀ (fuel k n : Nat), k ≤ n → n < k + fuel → device n = s →
      ∃ r, set_clipLoop s device k fuel = some r := by
  intro fuel
  induction fuel with
  | zero => intro k n h1 h2 _; omega
  | succ m ih =>
    intro k n h1 h2 hn
    by_cases hk : device k = s
    · exact ⟨k, by simp [set_clipLoop, hk]⟩
    · have hne : k ≠ n := fun h => hk (h ▸ hn)
      obtain ⟨r, hr⟩ := ih (k + 1) n (by omega) (by omega) hn
      exact ⟨r, by simp [set_clipLoop, hk, hr]⟩

/-- C8: `set_clip(s)` polls the clipboard device with no retry bound and
no backoff; modelling the unbounded loop with explicit fuel, some fuel
makes it return exactly when some readback equals `s` (and the returned
poll index is the first such readback), so the loop terminates if and only
if the device eventually reports the written value. -/
theorem set_clip_poll_until_equal (s : String) (device : Nat → String) :
    ((∃ fuel r, set_clip s device fuel = some r) ↔ (∃ n, device n = s)) ∧
    (∀ fuel r, set_clip s device fuel = some r →
      device r = s ∧ ∀ j, j < r → device j ≠ s) := by
  constructor
  · constructor
    · rintro ⟨fuel, r, hr⟩
      exact ⟨r, (set_clipLoop_sound s device fuel 0 r hr).1⟩
    · rintro ⟨n, hn⟩
      obtain ⟨r, hr⟩ := set_clipLoop_complete s device (n + 1) 0 n (by omega) (by omega) hn
      exact ⟨n + 1, r, hr⟩
  · intro fuel r hr
    obtain ⟨h1, _, h3⟩ := set_clipLoop_sound s device fuel 0 r hr
    exact ⟨h1, fun j hj => h3 j (by omega) hj⟩

/-- C8 witness: with a device that settles at the third readback, three
units of fuel suffice and the loop returns poll index 2. -/
theorem set_clip_poll_until_equal_witness :
    (∃ n, sampleDevice n = "x") ∧ sampleDevice 2 = "x" ∧ ∀ j, j < 2 → sampleDevice j ≠ "x" := by
  have h := set_clip_poll_until_equal "x" sampleDevice
  have h2 := h.2 3 2 (by decide)
  exact ⟨h.1.mp ⟨3, 2, by decide⟩, h2.1, h2.2⟩

/-- C5: on an empty history `first()` and `last()` are observably safe
no-ops: the clip sequence is untouched, the observable `current_index()`
still returns the undefined sentinel (`None`) rather than any in-range or
negative value, and the status side effect is the "Nothing in history"
report with no clipboard write.  On a non-empty history `first()` sets the
index to `length - 1` and `last()` sets it to `0`. -/
theorem first_last_empty_safe (h : HistoryList) :
    (h.clips = [] →
      (h.first.1.clips = [] ∧ h.first.1.current_index = none ∧
        h.first.2 = [Effect.popup "Nothing in history"] ∧
        ∀ s, Effect.setClip s ∉ h.first.2) ∧
      (h.last.1.clips = [] ∧ h.last.1.current_index = none ∧
        h.last.2 = [Effect.popup "Nothing in history"] ∧
        ∀ s, Effect.setClip s ∉ h.last.2)) ∧
    (h.clips ≠ [] →
      h.first.1.index = some ((h.clips.length : Int) - 1) ∧ h.last.1.index = some 0) := by
  constructor
  · intro he
    simp [HistoryList.first, HistoryList.last, HistoryList.status, HistoryList.current,
      HistoryList.current_index, he]
  · intro hne
    simp [HistoryList.first, HistoryList.last]

/-- C5 witness: the theorem applied to the empty initial history and to a
concrete two-entry history. -/
theorem first_last_empty_safe_witness :
    (HistoryList.init.first.1.current_index = none ∧
      HistoryList.init.first.2 = [Effect.popup "Nothing in history"]) ∧
    (twoClipState.first.1.index = some 1 ∧ twoClipState.last.1.index = some 0) := by
  have he := (first_last_empty_safe HistoryList.init).1 (by decide)
  have hn := (first_last_empty_safe twoClipState).2 (by decide)
  exact ⟨⟨he.1.2.1, he.1.2.2.1⟩, ⟨hn.1, hn.2⟩⟩

/-- C6: with the index in `[0, length-1]` on a non-empty history, `next()`
and `previous()` keep it there: `next()` at 0 and `previous()` at
`length-1` leave the whole state unchanged, otherwise they move the index
by exactly one. -/
theorem next_previous_stay_in_range (h : HistoryList) (i : Int) (hidx : h.index = some i)
    (h0 : 0 ≤ i) (hlt : i < (h.clips.length : Int)) :
    (h.next.1.index = some (if i = 0 then i else i - 1)) ∧
    (i = 0 → h.next.1 = h) ∧
    (∃ j, h.next.1.index = some j ∧ 0 ≤ j ∧ j < (h.clips.length : Int)) ∧
    (h.previous.1.index = some (if i = (h.clips.length : Int) - 1 then i else i + 1)) ∧
    (i = (h.clips.length : Int) - 1 → h.previous.1 = h) ∧
    (∃ j, h.previous.1.index = some j ∧ 0 ≤ j ∧ j < (h.clips.length : Int)) := by
  have hnext : h.next.1 = if i > 0 then { h with index := some (i - 1) } else h := by
    simp only [HistoryList.next, hidx]
  have hprev : h.previous.1 =
      if i < (h.clips.length : Int) - 1 then { h with index := some (i + 1) } else h := by
    simp only [HistoryList.previous, hidx]
  refine ⟨?_, ?_, ?_, ?_, ?_, ?_⟩
  · rw [hnext]
    by_cases hz : i = 0
    · rw [if_neg (by omega), if_pos hz]
      exact hidx
    · rw [if_pos (by omega), if_neg hz]
  · intro hz
    rw [hnext, if_neg (by omega)]
  · rw [hnext]
    split_ifs with h1
    · exact ⟨i - 1, rfl, by omega, by omega⟩
    · exact ⟨i, hidx, h0, hlt⟩
  · rw [hprev]
    by_cases hz : i = (h.clips.length : Int) - 1
    · rw [if_neg (by omega), if_pos hz]
      exact hidx
    · rw [if_pos (by omega), if_neg hz]
  · intro hz
    rw [hprev, if_neg (by omega)]
  · rw [hprev]
    split_ifs with h1
    · exact ⟨i + 1, rfl, by omega, by omega⟩
    · exact ⟨i, hidx, h0, hlt⟩

/-- C6 witness: the theorem applied at the concrete two-entry history with
index 0. -/
theorem next_previous_stay_in_range_witness :
    twoClipState.next.1 = twoClipState ∧ twoClipState.previous.1.index = some 1 := by
  have h := next_previous_stay_in_range twoClipState 0 (by decide) (by decide) (by decide)
  refine ⟨h.2.1 rfl, ?_⟩
  have := h.2.2.2.1
  simpa using this

/-! Helper lemmas about `insert_item` and `append`. -/

theorem insert_item_skip (h : HistoryList) (syn : Syn) (item : String)
    (hlen : h.clips.length ≤ h.maxClips) :
    h.insert_item true syn item = { h with index := some 0 } := by
  obtain ⟨c, r, m, ix, cs⟩ := h
  simp only [HistoryList.insert_item, if_true]
  simp only at hlen
  rw [if_neg (by simp; omega)]

theorem insert_item_no_skip (h : HistoryList) (syn : Syn) (item : String)
    (hlen : h.clips.length + 1 ≤ h.maxClips) :
    h.insert_item false syn item =
      { h with clips := item :: h.clips, clipSyntaxes := syn :: h.clipSyntaxes,
               index := some 0 } := by
  obtain ⟨c, r, m, ix, cs⟩ := h
  simp only [HistoryList.insert_item, if_false]
  simp only at hlen
  rw [if_neg (by simp; omega)]
  simp

/-- C1 (amended): the append de-bounce compares against the entry at index
0 (the newest), not the entry at the index pointer, and `insert_item`
always resets the index.  So when `x` equals the head entry, `append(x)`
inserts nothing - clips, metadata and registers are unchanged - but the
current index is reset to 0; it is a complete no-op exactly when the index
already points at the head.  (The claim's version - a no-op whenever `x`
equals the entry at the index pointer - is refuted by
`append_self_repeat_counterexample` below.) -/
theorem append_self_repeat_debounce (g : Globals) (host : Host) (h : HistoryList) (x : String)
    (hhead : h.clips.head? = some x) (hlen : h.clips.length ≤ h.maxClips) :
    (HistoryList.append false g host h x).clips = h.clips ∧
    (HistoryList.append false g host h x).clipSyntaxes = h.clipSyntaxes ∧
    (HistoryList.append false g host h x).registers = h.registers ∧
    (HistoryList.append false g host h x).index = some 0 ∧
    (h.index = some 0 → HistoryList.append false g host h x = h) := by
  have hres : HistoryList.append false g host h x = { h with index := some 0 } := by
    rw [show HistoryList.append false g host h x = h.insert_item true host.syn x by
      simp [HistoryList.append, hhead]]
    exact insert_item_skip h host.syn x hlen
  refine ⟨by rw [hres], by rw [hres], by rw [hres], by rw [hres], ?_⟩
  intro h0
  rw [hres]
  cases h
  simp_all

/-- C1 counterexample: with history `["a", "b"]` and the index pointer at
entry 1 (so that `"b"` is the entry at the index pointer), `append("b")`
is not a no-op: it relocates `"b"` to the front and resets the index. -/
theorem append_self_repeat_counterexample :
    pyGet c1State.clips 1 = some "b" ∧ c1State.index = some 1 ∧
    (HistoryList.append false sampleGlobals sampleHost c1State "b").clips = ["b", "a"] ∧
    (HistoryList.append false sampleGlobals sampleHost c1State "b").clips ≠ c1State.clips ∧
    (HistoryList.append false sampleGlobals sampleHost c1State "b").index ≠ c1State.index := by
  decide

/-- C1 witness: with the index already at the head, a self-repeat append
is a complete no-op. -/
theorem append_self_repeat_debounce_witness :
    (HistoryList.append false sampleGlobals sampleHost twoClipState "a").clips
      = twoClipState.clips ∧
    HistoryList.append false sampleGlobals sampleHost twoClipState "a" = twoClipState := by
  have h := append_self_repeat_debounce sampleGlobals sampleHost twoClipState "a"
    (by decide) (by decide)
  exact ⟨h.1, h.2.2.2.2 (by decide)⟩

/-- C3: with duplicates disallowed, appending a value that occurs at a
non-head position removes the old occurrence (and its metadata at the same
position) and prepends a fresh entry with index 0; in particular the
scenario `append("a")`, `append("b")`, `append("a")` from an empty history
yields `["a", "b"]` with index 0 and `current() == "a"`. -/
theorem append_duplicate_relocates :
    (∀ (g : Globals) (host : Host) (h : HistoryList) (x : String),
      g.allow_history_duplicates = false → x ∈ h.clips → h.clips.head? ≠ some x →
      h.clips.length ≤ h.maxClips →
      (HistoryList.append false g host h x).clips
        = x :: h.clips.eraseIdx (h.clips.indexOf x) ∧
      (HistoryList.append false g host h x).clipSyntaxes
        = host.syn :: h.clipSyntaxes.eraseIdx (h.clips.indexOf x) ∧
      (HistoryList.append false g host h x).index = some 0) ∧
    (c3Scenario.clips = ["a", "b"] ∧ c3Scenario.current_index = some 0 ∧
      c3Scenario.current = some "a") := by
  constructor
  · intro g host h x hdup hx hhead hlen
    have hne : h.clips ≠ [] := List.ne_nil_of_mem hx
    obtain ⟨top, htop⟩ : ∃ top, h.clips.head? = some top := by
      cases hc : h.clips with
      | nil => exact absurd hc hne
      | cons a l => exact ⟨a, rfl⟩
    have hxtop : ¬ x = top := fun hh => hhead (hh ▸ htop)
    have hix : h.clips.indexOf x < h.clips.length := List.indexOf_lt_length.mpr hx
    have hlen1 : 1 ≤ h.clips.length := List.length_pos.mpr hne
    have herase : (h.clips.eraseIdx (h.clips.indexOf x)).length = h.clips.length - 1 := by
      rw [List.length_eraseIdx]
      simp [hix]
    have hres : HistoryList.append false g host h x =
        HistoryList.insert_item
          { h with clips := h.clips.eraseIdx (h.clips.indexOf x),
                   clipSyntaxes := h.clipSyntaxes.eraseIdx (h.clips.indexOf x) }
          false host.syn x := by
      simp [HistoryList.append, htop, hxtop, hdup, hx]
    rw [hres, insert_item_no_skip _ host.syn x (by simp only [herase]; omega)]
    exact ⟨rfl, rfl, rfl⟩
  · decide

/-- C3 witness: the universally quantified part applied at a concrete
history `["b", "a"]` with `append("a")`. -/
theorem append_duplicate_relocates_witness :
    (HistoryList.append false sampleGlobals sampleHost
      { clips := ["b", "a"], registers := [], maxClips := 256, index := some 0,
        clipSyntaxes := [sampleSyn, sampleSyn] } "a").clips = ["a", "b"] := by
  have h := append_duplicate_relocates.1 sampleGlobals sampleHost
    { clips := ["b", "a"], registers := [], maxClips := 256, index := some 0,
      clipSyntaxes := [sampleSyn, sampleSyn] } "a" (by decide) (by decide) (by decide) (by decide)
  rw [h.1]
  decide

/-! Helper lemmas for the capacity invariant (C4). -/

theorem insert_item_maxClips (h : HistoryList) (skip : Bool) (syn : Syn) (item : String) :
    (h.insert_item skip syn item).maxClips = h.maxClips := by
  obtain ⟨c, r, m, ix, cs⟩ := h
  cases skip <;> (simp [HistoryList.insert_item]; split <;> rfl)

theorem insert_item_len (h : HistoryList) (skip : Bool) (syn : Syn) (item : String)
    (hlen : h.clips.length ≤ h.maxClips) :
    (h.insert_item skip syn item).clips.length ≤ h.maxClips := by
  obtain ⟨c, r, m, ix, cs⟩ := h
  simp only at hlen
  cases skip <;>
    (simp [HistoryList.insert_item]
     split <;> simp_all [List.length_dropLast] <;> omega)

theorem insert_item_no_skip_evict (h : HistoryList) (syn : Syn) (item : String)
    (hlm : h.maxClips < h.clips.length + 1) :
    h.insert_item false syn item =
      { h with clips := (item :: h.clips).dropLast,
               clipSyntaxes := (syn :: h.clipSyntaxes).dropLast, index := some 0 } := by
  obtain ⟨c, r, m, ix, cs⟩ := h
  simp only at hlm
  simp only [HistoryList.insert_item, if_false]
  rw [if_pos (by simp; omega)]
  simp

theorem insert_item_no_skip_take (h : HistoryList) (syn : Syn) (item : String)
    (hlen : h.clips.length ≤ h.maxClips) :
    (h.insert_item false syn item).clips = (item :: h.clips).take h.maxClips := by
  by_cases hgt : h.maxClips < h.clips.length + 1
  · rw [insert_item_no_skip_evict h syn item hgt]
    show (item :: h.clips).dropLast = (item :: h.clips).take h.maxClips
    rw [List.dropLast_eq_take]
    have hl : (item :: h.clips).length - 1 = h.maxClips := by simp; omega
    rw [hl]
  · rw [insert_item_no_skip h syn item (by omega)]
    show item :: h.clips = (item :: h.clips).take h.maxClips
    rw [List.take_of_length_le (by simp; omega)]

theorem foldl_insert_maxClips (host : Host) (subs : List String) (h : HistoryList) :
    (subs.foldl (fun acc sub => if sub = "" then acc else acc.insert_item false host.syn sub)
      h).maxClips = h.maxClips := by
  induction subs generalizing h with
  | nil => rfl
  | cons a l ih =>
    rw [List.foldl_cons, ih]
    by_cases ha : a = ""
    · simp [ha]
    · simp [ha, insert_item_maxClips]

theorem foldl_insert_len (host : Host) (subs : List String) (h : HistoryList)
    (hlen : h.clips.length ≤ h.maxClips) :
    (subs.foldl (fun acc sub => if sub = "" then acc else acc.insert_item false host.syn sub)
      h).clips.length ≤ h.maxClips := by
  induction subs generalizing h with
  | nil => exact hlen
  | cons a l ih =>
    rw [List.foldl_cons]
    by_cases ha : a = ""
    · simpa [ha] using ih h hlen
    · have h1 := insert_item_len h false host.syn a hlen
      have h2 := insert_item_maxClips h false host.syn a
      have := ih (h.insert_item false host.syn a) (by rw [h2]; exact h1)
      rw [h2] at this
      simpa [ha] using this

theorem eraseIdx_len_le (l : List String) (n : Nat) : (l.eraseIdx n).length ≤ l.length := by
  rw [List.length_eraseIdx]
  split <;> omega

theorem append_maxClips (ym : Bool) (g : Globals) (host : Host) (h : HistoryList)
    (item : String) :
    (HistoryList.append ym g host h item).maxClips = h.maxClips := by
  cases ym
  · cases hc : h.clips.head? with
    | none => simp [HistoryList.append, hc, insert_item_maxClips]
    | some top =>
      by_cases ht : item = top
      · simp [HistoryList.append, hc, ht, insert_item_maxClips]
      · by_cases hd : g.allow_history_duplicates = false ∧ item ∈ h.clips
        · simp only [HistoryList.append, hc]
          rw [if_neg (by decide)]
          rw [if_neg ht, if_pos (by simpa using hd)]
          exact insert_item_maxClips _ _ _ _
        · simp only [HistoryList.append, hc]
          rw [if_neg (by decide)]
          rw [if_neg ht, if_neg (by simpa using hd)]
          exact insert_item_maxClips _ _ _ _
  · cases hc : h.clips.head? with
    | none =>
      by_cases hdj : g.yank_disjoin_multiple_cursors = true
      · simp [HistoryList.append, hc, hdj, foldl_insert_maxClips]
      · simp [HistoryList.append, hc, hdj, insert_item_maxClips]
    | some top =>
      by_cases hsk : item = top ∧ host.numSel = 1
      · simp [HistoryList.append, hc, hsk, insert_item_maxClips]
      · by_cases hdj : g.yank_disjoin_multiple_cursors = true
        · simp only [HistoryList.append, hc]
          rw [if_pos (by decide)]
          rw [if_neg hsk, if_pos hdj]
          exact foldl_insert_maxClips _ _ _
        · simp only [HistoryList.append, hc]
          rw [if_pos (by decide)]
          rw [if_neg hsk, if_neg hdj]
          exact insert_item_maxClips _ _ _ _

theorem append_len (ym : Bool) (g : Globals) (host : Host) (h : HistoryList) (item : String)
    (hlen : h.clips.length ≤ h.maxClips) :
    (HistoryList.append ym g host h item).clips.length ≤ h.maxClips := by
  cases ym
  · cases hc : h.clips.head? with
    | none =>
      have := insert_item_len h false host.syn item hlen
      simpa [HistoryList.append, hc] using this
    | some top =>
      by_cases ht : item = top
      · have := insert_item_len h true host.syn item hlen
        simpa [HistoryList.append, hc, ht] using this
      · by_cases hd : g.allow_history_duplicates = false ∧ item ∈ h.clips
        · simp only [HistoryList.append, hc]
          rw [if_neg (by decide)]
          rw [if_neg ht, if_pos (by simpa using hd)]
          exact insert_item_len _ _ _ _ (le_trans (eraseIdx_len_le _ _) hlen)
        · simp only [HistoryList.append, hc]
          rw [if_neg (by decide)]
          rw [if_neg ht, if_neg (by simpa using hd)]
          exact insert_item_len _ _ _ _ hlen
  · cases hc : h.clips.head? with
    | none =>
      by_cases hdj : g.yank_disjoin_multiple_cursors = true
      · have := foldl_insert_len host host.selSubstrs h hlen
        simpa [HistoryList.append, hc, hdj] using this
      · have := insert_item_len h false host.syn item hlen
        simpa [HistoryList.append, hc, hdj] using this
    | some top =>
      by_cases hsk : item = top ∧ host.numSel = 1
      · have := insert_item_len h true host.syn item hlen
        simpa [HistoryList.append, hc, hsk] using this
      · by_cases hdj : g.yank_disjoin_multiple_cursors = true
        · simp only [HistoryList.append, hc]
          rw [if_pos (by decide)]
          rw [if_neg hsk, if_pos hdj]
          exact foldl_insert_len _ _ _ hlen
        · simp only [HistoryList.append, hc]
          rw [if_pos (by decide)]
          rw [if_neg hsk, if_neg hdj]
          exact insert_item_len _ _ _ _ hlen

theorem appendAll_invariant (ops : List AppendOp) (h : HistoryList)
    (hlen : h.clips.length ≤ h.maxClips) :
    (appendAll ops h).clips.length ≤ (appendAll ops h).maxClips ∧
    (appendAll ops h).maxClips = h.maxClips := by
  induction ops generalizing h with
  | nil => exact ⟨hlen, rfl⟩
  | cons op l ih =>
    have hstep : appendAll (op :: l) h
        = appendAll l (HistoryList.append op.yankMode op.g op.host h op.item) := by
      simp [appendAll]
    have h1 := append_len op.yankMode op.g op.host h op.item hlen
    have h2 := append_maxClips op.yankMode op.g op.host h op.item
    obtain ⟨a, b⟩ := ih (HistoryList.append op.yankMode op.g op.host h op.item)
      (by rw [h2]; exact h1)
    rw [hstep]
    exact ⟨a, by rw [b, h2]⟩

/-- C4: starting from the empty history, no sequence of append events
(whatever the mode, settings and view state of each event) ever grows the
clip sequence beyond the capacity 256; and the normal-mode append of a
value not yet present prepends it - the result is `(x :: clips)` truncated
to capacity, so the tail entry is evicted exactly when the insertion would
exceed capacity, and the new value is the entry at index 0. -/
theorem append_capacity_bound :
    (∀ ops : List AppendOp, (appendAll ops HistoryList.init).clips.length ≤ 256) ∧
    (∀ (g : Globals) (host : Host) (h : HistoryList) (x : String),
      h.clips.length ≤ h.maxClips → x ∉ h.clips →
      (HistoryList.append false g host h x).clips = (x :: h.clips).take h.maxClips ∧
      (0 < h.maxClips → (HistoryList.append false g host h x).clips.head? = some x)) := by
  constructor
  · intro ops
    obtain ⟨a, b⟩ := appendAll_invariant ops HistoryList.init (by simp [HistoryList.init])
    rw [b] at a
    exact a
  · intro g host h x hlen hx
    have hmain : (HistoryList.append false g host h x).clips
        = (x :: h.clips).take h.maxClips := by
      cases hc : h.clips.head? with
      | none =>
        have hres : HistoryList.append false g host h x = h.insert_item false host.syn x := by
          simp [HistoryList.append, hc]
        rw [hres]
        exact insert_item_no_skip_take h host.syn x hlen
      | some top =>
        have htop : top ∈ h.clips := by
          cases hcl : h.clips with
          | nil => rw [hcl] at hc; simp at hc
          | cons a l => rw [hcl] at hc; simp at hc; simp [hcl, hc]
        have hxt : ¬ x = top := fun he => hx (he ▸ htop)
        have hres : HistoryList.append false g host h x = h.insert_item false host.syn x := by
          simp only [HistoryList.append, hc]
          rw [if_neg (by decide), if_neg hxt, if_neg (fun hcon => hx hcon.2)]
        rw [hres]
        exact insert_item_no_skip_take h host.syn x hlen
    refine ⟨hmain, fun hm => ?_⟩
    rw [hmain]
    have h1 : (x :: h.clips).take h.maxClips = x :: h.clips.take (h.maxClips - 1) := by
      cases hmx : h.maxClips with
      | zero => omega
      | succ k => simp
    rw [h1]
    rfl

/-- C4 witness: the capacity bound applied to a concrete event sequence,
and the head property applied to a concrete fresh append. -/
theorem append_capacity_bound_witness :
    (appendAll sampleOps HistoryList.init).clips.length ≤ 256 ∧
    (HistoryList.append false sampleGlobals sampleHost twoClipState "c").clips
      = ["c", "a", "b"] := by
  refine ⟨append_capacity_bound.1 sampleOps, ?_⟩
  have h2 := (append_capacity_bound.2 sampleGlobals sampleHost twoClipState "c"
    (by decide) (by decide)).1
  rw [h2]
  decide

/-- C7: dispatcher error handling is atomic.  `paste` on an empty
addressed list only reports "Nothing in history" / "Nothing in yank
stack" and returns the state unchanged (no clipboard write, no removal,
no index change); register `paste` on an unset key only reports "Not a
valid register" and leaves the history object unchanged. -/
theorem paste_empty_no_mutation :
    (∀ (s : CMState) (yanking : Bool), s.getList.clips = [] →
      ClipboardManager.paste s yanking =
        (s, [Effect.popup (if yanking then "Nothing in yank stack" else "Nothing in history")])) ∧
    (∀ (h : HistoryList) (indent : Bool) (k : Char), dictGet h.registers k = none →
      ClipboardManagerRegister.paste h indent k =
        (h, [Effect.statusMessage "   Not a valid register"])) := by
  constructor
  · intro s yanking hempty
    simp [ClipboardManager.paste, hempty]
  · intro h indent k hnone
    simp [ClipboardManagerRegister.paste, hnone]

/-- C7 witness: the theorem applied to a concrete empty dispatcher state
and a concrete unset register key. -/
theorem paste_empty_no_mutation_witness :
    ClipboardManager.paste emptyDispatchState false
      = (emptyDispatchState, [Effect.popup "Nothing in history"]) ∧
    ClipboardManagerRegister.paste oneRegState false 'z'
      = (oneRegState, [Effect.statusMessage "   Not a valid register"]) := by
  have h1 := paste_empty_no_mutation.1 emptyDispatchState false (by decide)
  have h2 := paste_empty_no_mutation.2 oneRegState false 'z' (by decide)
  exact ⟨h1, h2⟩

/-! Helper lemmas about dict operations. -/

theorem dictGet_cons (p : Char × String) (d : List (Char × String)) (q : Char) :
    dictGet (p :: d) q = if p.1 = q then some p.2 else dictGet d q := by
  by_cases h : p.1 = q <;> simp [dictGet, List.find?_cons, h]

theorem dictGet_dictSet (d : List (Char × String)) (k : Char) (v : String) (q : Char) :
    dictGet (dictSet d k v) q = if k = q then some v else dictGet d q := by
  induction d with
  | nil => rw [show dictSet [] k v = [(k, v)] from rfl, dictGet_cons]
  | cons p d ih =>
    rw [show dictSet (p :: d) k v
        = if p.1 = k then (k, v) :: d else p :: dictSet d k v from rfl]
    by_cases hp : p.1 = k
    · rw [if_pos hp, dictGet_cons]
      by_cases hq : k = q
      · simp [hq]
      · rw [if_neg hq, if_neg hq, dictGet_cons, if_neg (by rw [hp]; exact hq)]
    · rw [if_neg hp, dictGet_cons, ih, dictGet_cons]
      by_cases hq : k = q
      · rw [if_pos hq, if_pos hq, if_neg (fun hh => hp (hh.trans hq.symm))]
      · rw [if_neg hq, if_neg hq]

theorem dictGet_foldl_empty_notmem (ks : List Char) (d : List (Char × String)) (c : Char)
    (hc : c ∉ ks) :
    dictGet (ks.foldl (fun acc n => dictSet acc n "") d) c = dictGet d c := by
  induction ks generalizing d with
  | nil => rfl
  | cons a l ih =>
    rw [List.foldl_cons, ih (dictSet d a "") (fun hl => hc (List.mem_cons_of_mem a hl)),
      dictGet_dictSet, if_neg (fun ha : a = c => hc (ha ▸ List.mem_cons_self a l))]

theorem dictGet_foldl_empty (ks : List Char) (d : List (Char × String)) (c : Char)
    (hc : c ∈ ks) :
    dictGet (ks.foldl (fun acc n => dictSet acc n "") d) c = some "" := by
  induction ks generalizing d with
  | nil => cases hc
  | cons a l ih =>
    rw [List.foldl_cons]
    by_cases hcl : c ∈ l
    · exact ih (dictSet d a "") hcl
    · have hca : a = c := by
        rcases List.mem_cons.mp hc with h | h
        · exact h.symm
        · exact absurd h hcl
      rw [dictGet_foldl_empty_notmem l (dictSet d a "") c hcl, dictGet_dictSet, if_pos hca]

/-- C9: `HistoryList.register` with the empty string as the value behaves
exactly like a read (Python truthiness of the `st` argument): the store is
unchanged and the stored value is returned, a `KeyError` raised when the
key is absent.  Consequently a successful `register` call never puts an
empty string into the store; a category reset does. -/
theorem register_empty_string_reads :
    (∀ (h : HistoryList) (reg : Char) (syn : String),
      HistoryList.register h reg (some "") syn = HistoryList.register h reg none syn ∧
      (∀ v, dictGet h.registers reg = some v →
        HistoryList.register h reg (some "") syn = Except.ok (h, some v, [])) ∧
      (dictGet h.registers reg = none →
        HistoryList.register h reg (some "") syn = Except.error ())) ∧
    (∀ (h : HistoryList) (reg : Char) (st : Option String) (syn : String) (h' : HistoryList)
      (r : Option String) (effs : List Effect),
      HistoryList.register h reg st syn = Except.ok (h', r, effs) →
      ∀ k, dictGet h'.registers k = some "" → dictGet h.registers k = some "") ∧
    (∀ (h : HistoryList), ∀ c ∈ numbers.toList,
      dictGet (h.reset_register "numbers").registers c = some "") := by
  refine ⟨?_, ?_, ?_⟩
  · intro h reg syn
    refine ⟨by simp [HistoryList.register], ?_, ?_⟩
    · intro v hv
      simp [HistoryList.register, hv]
    · intro hv
      simp [HistoryList.register, hv]
  · intro h reg st syn h' r effs hok k hk
    match st with
    | none =>
      cases hd : dictGet h.registers reg with
      | some v =>
        simp [HistoryList.register, hd] at hok
        rw [← hok.1] at hk
        exact hk
      | none => simp [HistoryList.register, hd] at hok
    | some s =>
      by_cases hs : s = ""
      · subst hs
        cases hd : dictGet h.registers reg with
        | some v =>
          simp [HistoryList.register, hd] at hok
          rw [← hok.1] at hk
          exact hk
        | none => simp [HistoryList.register, hd] at hok
      · simp [HistoryList.register, hs] at hok
        have hreg : h'.registers = dictSet h.registers reg s := by rw [← hok.1]
        rw [hreg, dictGet_dictSet] at hk
        by_cases hq : reg = k
        · rw [if_pos hq] at hk
          exact absurd (Option.some.inj hk) hs
        · rwa [if_neg hq] at hk
  · intro h c hc
    rw [show (h.reset_register "numbers").registers
        = numbers.toList.foldl (fun acc n => dictSet acc n "") h.registers from rfl]
    exact dictGet_foldl_empty numbers.toList h.registers c hc

/-- C9 witness: reading register `'a'` via an empty-string "set", the
no-empty-string-store property at a concrete successful call, and a
numeric reset writing an empty string. -/
theorem register_empty_string_reads_witness :
    HistoryList.register oneRegState 'a' (some "") ""
      = Except.ok (oneRegState, some "hello", []) ∧
    dictGet (oneRegState.reset_register "numbers").registers '1' = some "" := by
  have h1 := (register_empty_string_reads.1 oneRegState 'a' "").2.1 "hello" (by decide)
  have h3 := register_empty_string_reads.2.2 oneRegState '1' (by decide)
  exact ⟨h1, h3⟩

/-! Helper lemmas for register export/import (C10). -/

theorem dictGet_eq_none_iff (d : List (Char × String)) (k : Char) :
    dictGet d k = none ↔ k ∉ d.map Prod.fst := by
  simp only [dictGet, Option.map_eq_none', List.find?_eq_none, List.mem_map,
    decide_eq_true_eq]
  aesop

theorem keys_nodup_filter (d : List (Char × String)) (p : Char × String → Bool)
    (hd : (d.map Prod.fst).Nodup) : ((d.filter p).map Prod.fst).Nodup :=
  ((List.filter_sublist d).map Prod.fst).nodup hd

theorem dictGet_filter (d : List (Char × String)) (p : Char × String → Bool) (k : Char)
    (hd : (d.map Prod.fst).Nodup) :
    dictGet (d.filter p) k = (dictGet d k).filter (fun v => p (k, v)) := by
  induction d with
  | nil => rfl
  | cons q d ih =>
    have hd' : (d.map Prod.fst).Nodup := (List.nodup_cons.mp hd).2
    have hq : q.1 ∉ d.map Prod.fst := (List.nodup_cons.mp hd).1
    by_cases hpq : p q
    · rw [List.filter_cons_of_pos hpq, dictGet_cons, dictGet_cons]
      by_cases hk : q.1 = k
      · rw [if_pos hk, if_pos hk]
        have : (k, q.2) = q := by rw [← hk]
        simp [Option.filter, this, hpq]
      · rw [if_neg hk, if_neg hk, ih hd']
    · rw [List.filter_cons_of_neg hpq, dictGet_cons, ih hd']
      by_cases hk : q.1 = k
      · rw [if_pos hk]
        have hnone : dictGet d k = none :=
          (dictGet_eq_none_iff d k).mpr (by rw [← hk]; exact hq)
        rw [hnone]
        have : (k, q.2) = q := by rw [← hk]
        simp [Option.filter, this, hpq]
      · rw [if_neg hk]

theorem dictGet_dictUpdate (d m : List (Char × String)) (k : Char)
    (hm : (m.map Prod.fst).Nodup) :
    dictGet (dictUpdate d m) k = (dictGet m k).or (dictGet d k) := by
  induction m generalizing d with
  | nil => rfl
  | cons q m ih =>
    have hm' : (m.map Prod.fst).Nodup := (List.nodup_cons.mp hm).2
    have hq : q.1 ∉ m.map Prod.fst := (List.nodup_cons.mp hm).1
    rw [show dictUpdate d (q :: m) = dictUpdate (dictSet d q.1 q.2) m from rfl,
      ih (dictSet d q.1 q.2) hm', dictGet_cons, dictGet_dictSet]
    by_cases hk : q.1 = k
    · rw [if_pos hk, if_pos hk]
      have hnone : dictGet m k = none :=
        (dictGet_eq_none_iff m k).mpr (by rw [← hk]; exact hq)
      rw [hnone]
      rfl
    · rw [if_neg hk, if_neg hk]

theorem mem_catFilter (alphabet : String) (data : List (Char × String)) (k : Char) (v : String) :
    (k, v) ∈ catFilter alphabet data ↔ ((k, v) ∈ data ∧ k ∈ alphabet.toList ∧ v ≠ "") := by
  simp [catFilter, List.mem_filter]

theorem keys_catFilter_sub (alphabet : String) (data : List (Char × String)) (k : Char)
    (hk : k ∈ (catFilter alphabet data).map Prod.fst) : k ∈ alphabet.toList := by
  obtain ⟨p, hp, rfl⟩ := List.mem_map.mp hk
  obtain ⟨-, h2, -⟩ := (mem_catFilter alphabet data p.1 p.2).mp (by simpa using hp)
  exact h2

theorem dictSet_append (d : List (Char × String)) (k : Char) (v : String)
    (hk : k ∉ d.map Prod.fst) : dictSet d k v = d ++ [(k, v)] := by
  induction d with
  | nil => rfl
  | cons p d ih =>
    rw [show dictSet (p :: d) k v
        = if p.1 = k then (k, v) :: d else p :: dictSet d k v from rfl]
    rw [if_neg (fun hh => hk (by simp [← hh]))]
    rw [ih (fun hh => hk (by simp [hh]))]
    rfl

theorem dictUpdate_append (d m : List (Char × String))
    (hdisj : ∀ k ∈ m.map Prod.fst, k ∉ d.map Prod.fst) (hm : (m.map Prod.fst).Nodup) :
    dictUpdate d m = d ++ m := by
  induction m generalizing d with
  | nil => simp [dictUpdate]
  | cons q m ih =>
    have hm' : (m.map Prod.fst).Nodup := (List.nodup_cons.mp hm).2
    have hq : q.1 ∉ m.map Prod.fst := (List.nodup_cons.mp hm).1
    rw [show dictUpdate d (q :: m) = dictUpdate (dictSet d q.1 q.2) m from rfl,
      dictSet_append d q.1 q.2 (hdisj q.1 (by simp))]
    have hdisj' : ∀ k ∈ m.map Prod.fst, k ∉ (d ++ [(q.1, q.2)]).map Prod.fst := by
      intro k hk
      simp only [List.map_append, List.mem_append]
      rintro (hd | hsing)
      · exact hdisj k (by simp [hk]) hd
      · simp at hsing
        exact hq (hsing ▸ hk)
    rw [ih (d ++ [(q.1, q.2)]) hdisj' hm']
    simp

theorem numbers_not_lettersl : ∀ c ∈ numbers.toList, c ∉ lettersl.toList := by decide

theorem numbers_not_lettersu : ∀ c ∈ numbers.toList, c ∉ lettersu.toList := by decide

theorem lettersl_not_lettersu : ∀ c ∈ lettersl.toList, c ∉ lettersu.toList := by decide

theorem exportAll_eq_append (data : List (Char × String)) (hd : (data.map Prod.fst).Nodup) :
    dictUpdate (dictUpdate (catFilter numbers data) (catFilter lettersl data))
        (catFilter lettersu data)
      = catFilter numbers data ++ catFilter lettersl data ++ catFilter lettersu data := by
  have h1 : ∀ k ∈ (catFilter lettersl data).map Prod.fst,
      k ∉ (catFilter numbers data).map Prod.fst := by
    intro k hk hknum
    exact numbers_not_lettersl k (keys_catFilter_sub numbers data k hknum)
      (keys_catFilter_sub lettersl data k hk)
  rw [dictUpdate_append _ _ h1 (keys_nodup_filter data _ hd)]
  have h2 : ∀ k ∈ (catFilter lettersu data).map Prod.fst,
      k ∉ ((catFilter numbers data ++ catFilter lettersl data)).map Prod.fst := by
    intro k hk
    have hkU := keys_catFilter_sub lettersu data k hk
    simp only [List.map_append, List.mem_append]
    rintro (hn | hl)
    · exact numbers_not_lettersu k (keys_catFilter_sub numbers data k hn) hkU
    · exact lettersl_not_lettersu k (keys_catFilter_sub lettersl data k hl) hkU
  rw [dictUpdate_append _ _ h2 (keys_nodup_filter data _ hd)]

theorem option_filter_none (p : String → Bool) : Option.filter p none = none := rfl

theorem option_filter_some (p : String → Bool) (v : String) :
    Option.filter p (some v) = if p v then some v else none := rfl

theorem option_none_or (o : Option String) : Option.or none o = o := rfl

theorem option_some_or (v : String) (o : Option String) : Option.or (some v) o = some v := rfl

theorem mergeFilter_single_char (store f : List (Char × String)) (alpha : String) (k : Char)
    (hf : (f.map Prod.fst).Nodup) :
    dictGet (dictUpdate store (catFilter alpha f)) k =
      if k ∈ alpha.toList ∧ pyTruthy (dictGet f k) then dictGet f k
      else dictGet store k := by
  rw [show catFilter alpha f
      = f.filter (fun p => decide (p.1 ∈ alpha.toList ∧ p.2 ≠ "")) from rfl,
    dictGet_dictUpdate _ _ _ (keys_nodup_filter f _ hf), dictGet_filter f _ k hf]
  cases hv : dictGet f k with
  | none =>
    rw [option_filter_none, option_none_or,
      if_neg (fun hc => by simp [pyTruthy] at hc)]
  | some v =>
    rw [option_filter_some]
    by_cases hcond : k ∈ alpha.toList ∧ v ≠ ""
    · rw [if_pos (by simpa using hcond), option_some_or,
        if_pos ⟨hcond.1, by simp only [pyTruthy]; simpa using hcond.2⟩]
    · rw [if_neg (by simpa using hcond), option_none_or,
        if_neg (fun hc => hcond ⟨hc.1, by simpa [pyTruthy] using hc.2⟩)]

theorem mergeFilter_all_char (store f : List (Char × String)) (k : Char)
    (hf : (f.map Prod.fst).Nodup) :
    dictGet (dictUpdate (dictUpdate (dictUpdate store (catFilter numbers f))
        (catFilter lettersl f)) (catFilter lettersu f)) k =
      if k ∈ catChars 0 ∧ pyTruthy (dictGet f k) then dictGet f k
      else dictGet store k := by
  have hc0 : catChars 0 = numbers.toList ++ lettersl.toList ++ lettersu.toList := rfl
  rw [mergeFilter_single_char _ f lettersu k hf, mergeFilter_single_char _ f lettersl k hf,
    mergeFilter_single_char _ f numbers k hf]
  by_cases ht : pyTruthy (dictGet f k) = true
  · by_cases hkU : k ∈ lettersu.toList
    · have hcat : k ∈ catChars 0 := by
        rw [hc0]
        exact List.mem_append.mpr (Or.inr hkU)
      rw [if_pos ⟨hkU, ht⟩, if_pos ⟨hcat, ht⟩]
    · by_cases hkL : k ∈ lettersl.toList
      · have hcat : k ∈ catChars 0 := by
          rw [hc0]
          exact List.mem_append.mpr (Or.inl (List.mem_append.mpr (Or.inr hkL)))
        rw [if_neg (fun hc => hkU hc.1), if_pos ⟨hkL, ht⟩, if_pos ⟨hcat, ht⟩]
      · by_cases hkN : k ∈ numbers.toList
        · have hcat : k ∈ catChars 0 := by
            rw [hc0]
            exact List.mem_append.mpr (Or.inl (List.mem_append.mpr (Or.inl hkN)))
          rw [if_neg (fun hc => hkU hc.1), if_neg (fun hc => hkL hc.1),
            if_pos ⟨hkN, ht⟩, if_pos ⟨hcat, ht⟩]
        · have hcat : k ∉ catChars 0 := by
            rw [hc0]
            intro hmem
            rcases List.mem_append.mp hmem with h | h
            · rcases List.mem_append.mp h with h2 | h2
              · exact hkN h2
              · exact hkL h2
            · exact hkU h
          rw [if_neg (fun hc => hkU hc.1), if_neg (fun hc => hkL hc.1),
            if_neg (fun hc => hkN hc.1), if_neg (fun hc => hcat hc.1)]
  · rw [if_neg (fun hc => ht hc.2), if_neg (fun hc => ht hc.2),
      if_neg (fun hc => ht hc.2), if_neg (fun hc => ht hc.2)]

/-- C10: register export and import silently drop empty-valued keys.  For
each category choice, the exported dict holds exactly the store bindings
whose key is in that category and whose value is non-empty, and import
merges into the live store exactly the file bindings whose key is in the
category and whose value is non-empty (all other keys keep their store
value).  Keys emptied by a category reset are therefore never exported and
never overwritten by an import. -/
theorem registers_export_import_drop_empty :
    (∀ data : List (Char × String), (data.map Prod.fst).Nodup →
      ∀ ix : Int, (ix = 0 ∨ ix = 1 ∨ ix = 2 ∨ ix = 3) →
      ∀ exported : List (Char × String),
        ClipboardManagerRegister.export_to data ix = some exported →
        ∀ (k : Char) (v : String),
          ((k, v) ∈ exported ↔ ((k, v) ∈ data ∧ k ∈ catChars ix ∧ v ≠ ""))) ∧
    (∀ (store fileData : List (Char × String)), (fileData.map Prod.fst).Nodup →
      ∀ ix : Int, (ix = 0 ∨ ix = 1 ∨ ix = 2 ∨ ix = 3) →
      ∀ k : Char,
        dictGet (ClipboardManagerRegister.import_from store fileData ix) k =
          if k ∈ catChars ix ∧ pyTruthy (dictGet fileData k) then dictGet fileData k
          else dictGet store k) := by
  constructor
  · intro data hd ix hix exported hexp k v
    rcases hix with rfl | rfl | rfl | rfl
    · rw [show ClipboardManagerRegister.export_to data 0
          = some (dictUpdate (dictUpdate (catFilter numbers data) (catFilter lettersl data))
              (catFilter lettersu data)) from rfl] at hexp
      rw [← Option.some.inj hexp, exportAll_eq_append data hd,
        show catChars 0 = numbers.toList ++ lettersl.toList ++ lettersu.toList from rfl]
      simp only [List.mem_append, mem_catFilter]
      tauto
    · rw [show ClipboardManagerRegister.export_to data 1
          = some (catFilter numbers data) from rfl] at hexp
      rw [← Option.some.inj hexp, show catChars 1 = numbers.toList from rfl]
      exact mem_catFilter numbers data k v
    · rw [show ClipboardManagerRegister.export_to data 2
          = some (catFilter lettersl data) from rfl] at hexp
      rw [← Option.some.inj hexp, show catChars 2 = lettersl.toList from rfl]
      exact mem_catFilter lettersl data k v
    · rw [show ClipboardManagerRegister.export_to data 3
          = some (catFilter lettersu data) from rfl] at hexp
      rw [← Option.some.inj hexp, show catChars 3 = lettersu.toList from rfl]
      exact mem_catFilter lettersu data k v
  · intro store f hf ix hix k
    rcases hix with rfl | rfl | rfl | rfl
    · rw [show ClipboardManagerRegister.import_from store f 0
          = dictUpdate (dictUpdate (dictUpdate store (catFilter numbers f))
              (catFilter lettersl f)) (catFilter lettersu f) from rfl]
      exact mergeFilter_all_char store f k hf
    · rw [show ClipboardManagerRegister.import_from store f 1
          = dictUpdate store (catFilter numbers f) from rfl,
        show catChars 1 = numbers.toList from rfl]
      exact mergeFilter_single_char store f numbers k hf
    · rw [show ClipboardManagerRegister.import_from store f 2
          = dictUpdate store (catFilter lettersl f) from rfl,
        show catChars 2 = lettersl.toList from rfl]
      exact mergeFilter_single_char store f lettersl k hf
    · rw [show ClipboardManagerRegister.import_from store f 3
          = dictUpdate store (catFilter lettersu f) from rfl,
        show catChars 3 = lettersu.toList from rfl]
      exact mergeFilter_single_char store f lettersu k hf

/-- C10 witness: exporting the numeric category of a concrete store keeps
`('1', "one")` and drops the empty-valued `('2', "")`; an all-category
register import of the same file into a one-key store merges `'a'` but
leaves `'2'` unset. -/
theorem registers_export_import_drop_empty_witness :
    (('1', "one") ∈ [('1', "one")] ∧ ('2', "") ∉ [('1', "one")]) ∧
    dictGet (ClipboardManagerRegister.import_from [('a', "old")] sampleStore 0) '2' = none ∧
    dictGet (ClipboardManagerRegister.import_from [('a', "old")] sampleStore 0) 'a'
      = some "aa" := by
  have he := registers_export_import_drop_empty.1 sampleStore (by decide) 1
    (by right; left; rfl) [('1', "one")] (by decide)
  have hi := registers_export_import_drop_empty.2 [('a', "old")] sampleStore (by decide) 0
    (by left; rfl)
  refine ⟨⟨(he '1' "one").mpr (by decide), fun hmem => ?_⟩, ?_, ?_⟩
  · exact ((he '2' "").mp hmem).2.2 rfl
  · rw [hi '2']
    decide
  · rw [hi 'a']
    decide

/-! Helper lemmas for the yank traversal (C2). -/

theorem current_at_nat (L : HistoryList) (i : Nat) (hi : i < L.clips.length)
    (hidx : L.index = some (i : Int)) : L.current = some (L.clips[i]) := by
  have hne : L.clips.length ≠ 0 := by omega
  simp only [HistoryList.current, hidx, if_pos hne]
  simp only [pyGet, Int.natCast_nonneg, if_pos, Int.toNat_natCast]
  exact List.getElem?_eq_getElem hi

theorem current_at_last (L : HistoryList) (hne : L.clips ≠ [])
    (hidx : L.index = some ((L.clips.length : Int) - 1)) :
    L.current = some (L.clips.getLast hne) := by
  have hlen : L.clips.length ≠ 0 := fun hl => hne (List.length_eq_zero.mp hl)
  simp only [HistoryList.current, hidx, if_pos hlen]
  rw [pyGet_len_sub_one L.clips hne, List.getLast?_eq_getLast_of_ne_nil hne]

theorem current_at_neg_one (L : HistoryList) (hne : L.clips ≠ [])
    (hidx : L.index = some (-1)) : L.current = some (L.clips.getLast hne) := by
  have hlen : L.clips.length ≠ 0 := fun hl => hne (List.length_eq_zero.mp hl)
  simp only [HistoryList.current, hidx, if_pos hlen]
  rw [pyGet_neg_one L.clips hne, List.getLast?_eq_getLast_of_ne_nil hne]

theorem paste_yank_pop (s : CMState) (v : String)
    (huse : s.useYank = true) (hpop : s.pop = true)
    (hne : s.yank.clips.length ≠ 0) (hcur : s.yank.current = some v) :
    ClipboardManager.paste s true =
      ({ s with yank := { s.yank with
            clips := s.yank.clips.eraseIdx (s.yank.clips.indexOf v),
            clipSyntaxes := s.yank.clipSyntaxes.eraseIdx (s.yank.clips.indexOf v) } },
       [Effect.setClip v,
        Effect.runCommand (if s.indent then "paste_and_indent" else "paste"),
        Effect.showAtCenter, Effect.hideAll]
        ++ (if (s.yank.clips.eraseIdx (s.yank.clips.indexOf v)).length = 0
            then [Effect.popup "Nothing in yank stack"] else [])
        ++ [Effect.updatePanel]) := by
  have hget : s.getList = s.yank := by simp [CMState.getList, huse]
  have hset : ∀ L, s.setList L = { s with yank := L } := by
    intro L
    simp [CMState.setList, huse]
  simp only [ClipboardManager.paste, hget, hcur, hpop, hset, if_neg hne, if_true]

theorem yankModeCommand_idx (g : Globals) (s : CMState) :
    (yankModeCommand g s).1.idx = s.idx := by
  simp only [yankModeCommand]
  split <;> rfl

theorem yankModeCommand_clips_of_empty (g : Globals) (s : CMState)
    (hs : s.yank.clips = []) : (yankModeCommand g s).1.yank.clips = [] := by
  simp only [yankModeCommand]
  split
  · rfl
  · exact hs

theorem yankEndWrap_proj (g : Globals) (s1 : CMState) (e : List Effect) :
    (yankEndWrap g s1 e).1.idx = s1.idx ∧
    (yankEndWrap g s1 e).1.yank.clips = s1.yank.clips ∧
    (∀ x, x ∈ e → x ∈ (yankEndWrap g s1 e).2) := by
  simp only [yankEndWrap]
  by_cases hc : s1.yankMode ∧ s1.yank.clips.length = 0 ∧ g.explicit_yank_mode
  · rw [if_pos hc]
    by_cases he : g.end_yank_mode_on_emptied_stack = true
    · rw [if_pos he]
      have hempty : s1.yank.clips = [] := List.length_eq_zero.mp hc.2.1
      refine ⟨yankModeCommand_idx g s1, ?_, ?_⟩
      · rw [yankModeCommand_clips_of_empty g s1 hempty, hempty]
      · intro x hx
        exact List.mem_append.mpr (Or.inl hx)
    · rw [if_neg he]
      exact ⟨rfl, rfl, fun x hx => hx⟩
  · rw [if_neg hc]
    exact ⟨rfl, rfl, fun x hx => hx⟩

theorem yank_step_bottom (s0 : CMState) (hne : s0.yank.clips ≠ [])
    (huse : s0.useYank = true) (hpop : s0.pop = true) :
    (ClipboardManager.paste { s0 with yank := (s0.yank.first).1 } true).1.yank.clips
        = s0.yank.clips.eraseIdx (s0.yank.clips.indexOf (s0.yank.clips.getLast hne)) ∧
    (ClipboardManager.paste { s0 with yank := (s0.yank.first).1 } true).1.idx = s0.idx ∧
    Effect.setClip (s0.yank.clips.getLast hne)
        ∈ (ClipboardManager.paste { s0 with yank := (s0.yank.first).1 } true).2 := by
  have hlen0 : s0.yank.clips.length ≠ 0 := fun h0 => hne (List.length_eq_zero.mp h0)
  have hcur : ({ s0 with yank := (s0.yank.first).1 } : CMState).yank.current
      = some (s0.yank.clips.getLast hne) := by
    exact current_at_last (s0.yank.first).1 hne rfl
  have hp := paste_yank_pop { s0 with yank := (s0.yank.first).1 }
    (s0.yank.clips.getLast hne) huse hpop hlen0 hcur
  rw [hp]
  refine ⟨rfl, rfl, by simp⟩

theorem runYank_bottom (g : Globals) (s : CMState) (ind : Bool)
    (hne : s.yank.clips ≠ [])
    (hbranch : s.idx = none ∨ ∃ i : Int, s.idx = some i ∧ (s.yank.clips.length : Int) - 1 < i) :
    (ClipboardManager.runYank g s ind false).1.yank.clips
        = s.yank.clips.eraseIdx (s.yank.clips.indexOf (s.yank.clips.getLast hne)) ∧
    (ClipboardManager.runYank g s ind false).1.idx = s.idx ∧
    Effect.setClip (s.yank.clips.getLast hne) ∈ (ClipboardManager.runYank g s ind false).2 := by
  have hlen0 : s.yank.clips.length ≠ 0 := fun h0 => hne (List.length_eq_zero.mp h0)
  set s0 : CMState := { s with indent := ind, pop := true, useYank := true } with hs0
  have hrun : ClipboardManager.runYank g s ind false
      = yankEndWrap g (ClipboardManager.paste { s0 with yank := (s0.yank.first).1 } true).1
          ((s0.yank.first).2
            ++ (ClipboardManager.paste { s0 with yank := (s0.yank.first).1 } true).2) := by
    rcases hbranch with hidx | ⟨i, hidx, hgt⟩
    · simp [ClipboardManager.runYank, ClipboardManager.yank, hs0, hidx, hlen0]
    · have hnotge : ¬ ((s.yank.clips.length : Int) - 1 ≥ i) := by omega
      simp [ClipboardManager.runYank, ClipboardManager.yank, hs0, hidx, hlen0, hnotge]
  obtain ⟨h1, h2, h3⟩ := yank_step_bottom s0 hne rfl rfl
  obtain ⟨ew1, ew2, ew3⟩ := yankEndWrap_proj g
    (ClipboardManager.paste { s0 with yank := (s0.yank.first).1 } true).1
    ((s0.yank.first).2
      ++ (ClipboardManager.paste { s0 with yank := (s0.yank.first).1 } true).2)
  refine ⟨?_, ?_, ?_⟩
  · rw [hrun, ew2]
    exact h1
  · rw [hrun, ew1, h2]
  · rw [hrun]
    exact ew3 _ (List.mem_append.mpr (Or.inr h3))

theorem runYank_resume_zero (g : Globals) (s : CMState) (ind : Bool)
    (hne : s.yank.clips ≠ []) (hidx : s.idx = some 0) :
    (ClipboardManager.runYank g s ind false).1.yank.clips
        = s.yank.clips.eraseIdx (s.yank.clips.indexOf (s.yank.clips.getLast hne)) ∧
    (ClipboardManager.runYank g s ind false).1.idx = none ∧
    Effect.setClip (s.yank.clips.getLast hne) ∈ (ClipboardManager.runYank g s ind false).2 := by
  have hlen0 : s.yank.clips.length ≠ 0 := fun h0 => hne (List.length_eq_zero.mp h0)
  have hlenpos : 1 ≤ s.yank.clips.length := Nat.one_le_iff_ne_zero.mpr hlen0
  have hge : (0 : Int) ≤ (s.yank.clips.length : Int) - 1 := by omega
  have hlt : (-1 : Int) < (s.yank.clips.length : Int) := by omega
  set s0 : CMState := { s with indent := ind, pop := true, useYank := true } with hs0
  have hrun : ClipboardManager.runYank g s ind false
      = yankEndWrap g
          (ClipboardManager.paste
            { s0 with yank := { s0.yank with index := some (-1) }, idx := none } true).1
          (({ s0.yank with index := some (-1) } : HistoryList).status
            ++ (ClipboardManager.paste
              { s0 with yank := { s0.yank with index := some (-1) }, idx := none } true).2) := by
    simp [ClipboardManager.runYank, ClipboardManager.yank, HistoryList.atIndex, hs0, hidx,
      hlen0, hge, hlt]
  have hcur : ({ s0 with yank := { s0.yank with index := some (-1) }, idx := none }
        : CMState).yank.current = some (s.yank.clips.getLast hne) :=
    current_at_neg_one { s0.yank with index := some (-1) } hne rfl
  have hp := paste_yank_pop
    { s0 with yank := { s0.yank with index := some (-1) }, idx := none }
    (s.yank.clips.getLast hne) rfl rfl hlen0 hcur
  obtain ⟨ew1, ew2, ew3⟩ := yankEndWrap_proj g
    (ClipboardManager.paste
      { s0 with yank := { s0.yank with index := some (-1) }, idx := none } true).1
    (({ s0.yank with index := some (-1) } : HistoryList).status
      ++ (ClipboardManager.paste
        { s0 with yank := { s0.yank with index := some (-1) }, idx := none } true).2)
  refine ⟨?_, ?_, ?_⟩
  · rw [hrun, ew2, hp]
  · rw [hrun, ew1, hp]
  · rw [hrun]
    refine ew3 _ (List.mem_append.mpr (Or.inr ?_))
    rw [hp]
    simp

theorem runYank_resume_pos (g : Globals) (s : CMState) (ind : Bool) (i : Nat)
    (hne : s.yank.clips ≠ []) (hidx : s.idx = some (i : Int))
    (h1i : 1 ≤ i) (hile : (i : Int) ≤ (s.yank.clips.length : Int) - 1) :
    ∀ hi : i - 1 < s.yank.clips.length,
    (ClipboardManager.runYank g s ind false).1.yank.clips
        = s.yank.clips.eraseIdx (s.yank.clips.indexOf (s.yank.clips[i - 1])) ∧
    (ClipboardManager.runYank g s ind false).1.idx = some ((i : Int) - 1) ∧
    Effect.setClip (s.yank.clips[i - 1]) ∈ (ClipboardManager.runYank g s ind false).2 := by
  intro hi
  have hlen0 : s.yank.clips.length ≠ 0 := fun h0 => hne (List.length_eq_zero.mp h0)
  have hlt2 : (i : Int) - 1 < (s.yank.clips.length : Int) := by omega
  have hnotneg : ¬ ((i : Int) - 1 < 0) := by omega
  have hcast : (i : Int) - 1 = ((i - 1 : Nat) : Int) := by omega
  set s0 : CMState := { s with indent := ind, pop := true, useYank := true } with hs0
  set yp : HistoryList := { s0.yank with index := some ((i : Int) - 1) } with hyp
  set sp : CMState := { s0 with yank := yp, idx := some ((i : Int) - 1) } with hsp
  have hrun : ClipboardManager.runYank g s ind false
      = yankEndWrap g (ClipboardManager.paste sp true).1
          (yp.status ++ (ClipboardManager.paste sp true).2) := by
    simp [ClipboardManager.runYank, ClipboardManager.yank, HistoryList.atIndex, hs0, hyp,
      hsp, hidx, hlen0, hile, hlt2, hnotneg]
  have hcur : sp.yank.current = some (s.yank.clips[i - 1]) := by
    refine current_at_nat yp (i - 1) hi ?_
    show some ((i : Int) - 1) = some ((i - 1 : Nat) : Int)
    rw [hcast]
  have hp := paste_yank_pop sp (s.yank.clips[i - 1]) rfl rfl hlen0 hcur
  obtain ⟨ew1, ew2, ew3⟩ := yankEndWrap_proj g (ClipboardManager.paste sp true).1
    (yp.status ++ (ClipboardManager.paste sp true).2)
  refine ⟨?_, ?_, ?_⟩
  · rw [hrun, ew2, hp]
  · rw [hrun, ew1, hp]
  · rw [hrun]
    refine ew3 _ (List.mem_append.mpr (Or.inr ?_))
    rw [hp]
    simp

/-- C2 (amended): the yank operation is a consuming traversal over clip
contents.  With no saved chooser index, each yank selects the bottom-most
(oldest) remaining entry via `first()`, writes its content to the
clipboard, and removes the first occurrence of that content from the stack
(`List.clips.index(clip)` searches by content from the top, so this is the
bottom entry itself exactly when the stack holds no duplicate payload).
With a saved resume index `i` still within the stack (`i <= length-1`),
yank positions one index before it, decrements the saved index (clearing
it once it drops below zero, so that yanking reverts to popping the
bottom), and consumes the content at that position, again removing its
first occurrence - for `i = 0` the position is the Python index `-1`,
i.e. the bottom entry.  But when the saved index exceeds `length-1`
(reachable because bottom-pops shrink the stack without touching the saved
index), yank pops the bottom-most content and leaves the saved resume
index unchanged - neither decremented nor cleared, refuting the claim's
"decrements the saved resume index each time"
(see `yank_consuming_traversal_counterexample`). -/
theorem yank_consuming_traversal (g : Globals) (s : CMState) (ind : Bool)
    (hne : s.yank.clips ≠ []) :
    (s.idx = none →
      (ClipboardManager.runYank g s ind false).1.yank.clips
        = s.yank.clips.eraseIdx (s.yank.clips.indexOf (s.yank.clips.getLast hne)) ∧
      (s.yank.clips.Nodup →
        (ClipboardManager.runYank g s ind false).1.yank.clips = s.yank.clips.dropLast) ∧
      (ClipboardManager.runYank g s ind false).1.idx = none ∧
      Effect.setClip (s.yank.clips.getLast hne)
        ∈ (ClipboardManager.runYank g s ind false).2) ∧
    (∀ i : Nat, s.idx = some (i : Int) → 1 ≤ i →
      (i : Int) ≤ (s.yank.clips.length : Int) - 1 →
      ∀ hi : i - 1 < s.yank.clips.length,
      (ClipboardManager.runYank g s ind false).1.yank.clips
        = s.yank.clips.eraseIdx (s.yank.clips.indexOf (s.yank.clips[i - 1])) ∧
      (s.yank.clips.Nodup →
        (ClipboardManager.runYank g s ind false).1.yank.clips
          = s.yank.clips.eraseIdx (i - 1)) ∧
      (ClipboardManager.runYank g s ind false).1.idx = some ((i : Int) - 1) ∧
      Effect.setClip (s.yank.clips[i - 1])
        ∈ (ClipboardManager.runYank g s ind false).2) ∧
    (s.idx = some 0 →
      (ClipboardManager.runYank g s ind false).1.yank.clips
        = s.yank.clips.eraseIdx (s.yank.clips.indexOf (s.yank.clips.getLast hne)) ∧
      (s.yank.clips.Nodup →
        (ClipboardManager.runYank g s ind false).1.yank.clips = s.yank.clips.dropLast) ∧
      (ClipboardManager.runYank g s ind false).1.idx = none ∧
      Effect.setClip (s.yank.clips.getLast hne)
        ∈ (ClipboardManager.runYank g s ind false).2) ∧
    (∀ i : Int, s.idx = some i → (s.yank.clips.length : Int) - 1 < i →
      (ClipboardManager.runYank g s ind false).1.yank.clips
        = s.yank.clips.eraseIdx (s.yank.clips.indexOf (s.yank.clips.getLast hne)) ∧
      (s.yank.clips.Nodup →
        (ClipboardManager.runYank g s ind false).1.yank.clips = s.yank.clips.dropLast) ∧
      (ClipboardManager.runYank g s ind false).1.idx = some i ∧
      Effect.setClip (s.yank.clips.getLast hne)
        ∈ (ClipboardManager.runYank g s ind false).2) := by
  refine ⟨?_, ?_, ?_, ?_⟩
  · intro hidx
    obtain ⟨a, b, c⟩ := runYank_bottom g s ind hne (Or.inl hidx)
    refine ⟨a, fun hnd => ?_, by rw [b, hidx], c⟩
    rw [a, indexOf_getLast _ hne hnd, eraseIdx_last]
  · intro i hidx h1i hile hi
    obtain ⟨a, b, c⟩ := runYank_resume_pos g s ind i hne hidx h1i hile hi
    refine ⟨a, fun hnd => ?_, b, c⟩
    rw [a, List.indexOf_getElem hnd (i - 1) hi]
  · intro hidx
    obtain ⟨a, b, c⟩ := runYank_resume_zero g s ind hne hidx
    refine ⟨a, fun hnd => ?_, b, c⟩
    rw [a, indexOf_getLast _ hne hnd, eraseIdx_last]
  · intro i hidx hgt
    obtain ⟨a, b, c⟩ := runYank_bottom g s ind hne (Or.inr ⟨i, hidx, hgt⟩)
    refine ⟨a, fun hnd => ?_, by rw [b, hidx], c⟩
    rw [a, indexOf_getLast _ hne hnd, eraseIdx_last]

/-- C2 counterexample: with yank stack `["b", "a"]` and a saved resume
index 2 (reachable by choosing entry 2 of a 3-entry stack and yanking
once), the next yank pops the bottom entry but does not decrement the
saved resume index: it stays 2, where the claim requires it to become 1. -/
theorem yank_consuming_traversal_counterexample :
    c2State.idx = some 2 ∧ c2State.yank.clips.length = 2 ∧
    (ClipboardManager.runYank sampleGlobals c2State false false).1.idx = some 2 ∧
    (ClipboardManager.runYank sampleGlobals c2State false false).1.idx ≠ some 1 ∧
    (ClipboardManager.runYank sampleGlobals c2State false false).1.yank.clips = ["b"] := by
  decide

/-- C2 witness: with duplicate-free stack `["c", "b", "a"]` and a live
saved resume index 2, the next yank consumes entry 1 (`"b"`) and
decrements the index; with the duplicate stack `["a", "b", "a"]` and no
saved index, yank pastes the bottom content `"a"` and removes its first
occurrence, the top entry. -/
theorem yank_consuming_traversal_witness :
    ((ClipboardManager.runYank sampleGlobals c2ResumeState false false).1.yank.clips
      = ["c", "a"] ∧
     (ClipboardManager.runYank sampleGlobals c2ResumeState false false).1.idx = some 1) ∧
    (ClipboardManager.runYank sampleGlobals c2DupState false false).1.yank.clips
      = ["b", "a"] := by
  have h := (yank_consuming_traversal sampleGlobals c2ResumeState false (by decide)).2.1
    2 (by decide) (by decide) (by decide) (by decide)
  have hd := (yank_consuming_traversal sampleGlobals c2DupState false (by decide)).1
    (by decide)
  refine ⟨⟨?_, ?_⟩, ?_⟩
  · rw [h.2.1 (by decide)]
    decide
  · rw [h.2.2.1]
    decide
  · rw [hd.1]
    decide
